import Mathlib

/-!
Verification of the native active-object event queue (QP::QMActive, file
qf_actq.cpp) and the priority set (QP::QPSet, file qpset.h) of the QP/C++
framework core, against its natural-language specification.

The queue state is embedded shallowly: machine counters (`QEQueueCtr`,
`uint_fast16_t`) become `Nat`, the `QEvt const *` pointers stored in the
queue become values of an opaque type `α` (the queue operations never read
the pointees except for `poolId_`/`refCtr_`, whose effect is modelled by
separate functions on `QEvt`), the null pointer becomes `none`, and the
ring buffer becomes a `List (Option α)` of length `m_end` whose cells are
`none` until first written.  Fatal assertions (`Q_REQUIRE_ID`,
`Q_ASSERT_ID`) are modelled by returning `none` from the operation.
-/

set_option maxHeartbeats 1000000

/-- The event structure `QEvt` (qevt.h, POD form): a signal, a pool id
(0 for a static event) and a reference counter. -/
structure QEvt where
  sig : Nat
  poolId : Nat
  refCtr : Nat
deriving DecidableEq, Repr

/-- Modelled from the spec: the macro `QF_EVT_REF_CTR_INC_` (qf_pkg.h is not
part of the sources) increments the event's reference counter; the spec says
"A dynamic event's refCtr is incremented on every enqueue". -/
def QF_EVT_REF_CTR_INC_ (e : QEvt) : QEvt :=
  { e with refCtr := e.refCtr + 1 }

/-- Modelled from the spec: `QF::gc(e)` (qf_dyn.cpp is not part of the
sources): "if e.poolId ≠ 0, decrement refCtr; when it reaches zero, return
the storage to pool poolId.  Static events are a no-op."  Only the effect on
the event record is modelled here. -/
def QF_gc (e : QEvt) : QEvt :=
  if e.poolId ≠ 0 then { e with refCtr := e.refCtr - 1 } else e

/-- The guarded reference-count increment performed by both
`QMActive::post_` (qf_actq.cpp lines 126-128) and `QMActive::postLIFO`
(lines 212-214): `if (e->poolId_ != 0) QF_EVT_REF_CTR_INC_(e)`. -/
def refCtrStep (e : QEvt) : QEvt :=
  if e.poolId ≠ 0 then QF_EVT_REF_CTR_INC_ e else e

/-- The native event queue `QEQueue` (member `m_eQueue` of `QMActive`).
`m_end` is the ring-buffer capacity; `m_ring` has length `m_end` and a cell
holds `none` until an event pointer is first stored in it; `m_frontEvt =
none` is the null "queue empty" sentinel. -/
structure QEQueue (α : Type) where
  m_frontEvt : Option α
  m_ring : List (Option α)
  m_head : Nat
  m_tail : Nat
  m_end : Nat
  m_nFree : Nat
  m_nMin : Nat
deriving DecidableEq, Repr

/-- Read of `QF_PTR_AT_(m_ring, i)`: an in-range read returns the cell,
out-of-range reads (which never occur on reachable states) return `none`. -/
def ringAt {α : Type} (r : List (Option α)) (i : Nat) : Option α :=
  r.getD i none

/-- `QMActive::post_(e, margin)` (qf_actq.cpp lines 97-179), the queue-state
part.  Returns `some (status, q')` for a normal return with C++ return value
`status`, and `none` when the fatal assertion `Q_ASSERT_ID(110)` fires
(insufficient room with `margin == 0`).  The effect on the posted event's
pointee (refCtr increment / garbage collection) is modelled separately by
`postEvtEffect`. -/
def QMActive.post_ {α : Type} (q : QEQueue α) (e : α) (margin : Nat) :
    Option (Bool × QEQueue α) :=
  let nFree := q.m_nFree
  if margin < nFree then
    let nFree' := nFree - 1
    let nMin' := if nFree' < q.m_nMin then nFree' else q.m_nMin
    match q.m_frontEvt with
    | none =>
        some (true, { q with m_frontEvt := some e, m_nFree := nFree',
                             m_nMin := nMin' })
    | some _ =>
        let ring' := q.m_ring.set q.m_head (some e)
        let head' := (if q.m_head = 0 then q.m_end else q.m_head) - 1
        some (true, { q with m_ring := ring', m_head := head',
                             m_nFree := nFree', m_nMin := nMin' })
  else
    if margin ≠ 0 then
      some (false, q)
    else
      none

/-- The effect of `QMActive::post_(e, margin)` on the posted event's record:
on the success path the guarded refCtr increment (lines 126-128), on the
failure path `QF::gc(e)` (line 174), `none` when the assertion fires. -/
def postEvtEffect (nFree margin : Nat) (e : QEvt) : Option QEvt :=
  if margin < nFree then
    some (refCtrStep e)
  else
    if margin ≠ 0 then
      some (QF_gc e)
    else
      none

/-- `QMActive::postLIFO(e)` (qf_actq.cpp lines 193-239), the queue-state
part.  `none` models the fatal assertion `Q_ASSERT_ID(210)` (overflow). -/
def QMActive.postLIFO {α : Type} (q : QEQueue α) (e : α) :
    Option (QEQueue α) :=
  let nFree := q.m_nFree
  if nFree = 0 then
    none
  else
    let nFree' := nFree - 1
    let nMin' := if nFree' < q.m_nMin then nFree' else q.m_nMin
    let frontEvt := q.m_frontEvt
    match frontEvt with
    | none =>
        some { q with m_frontEvt := some e, m_nFree := nFree',
                      m_nMin := nMin' }
    | some f =>
        let tail1 := q.m_tail + 1
        let tail' := if tail1 = q.m_end then 0 else tail1
        some { q with m_frontEvt := some e, m_nFree := nFree',
                      m_nMin := nMin', m_tail := tail',
                      m_ring := q.m_ring.set tail' (some f) }

/-- The effect of `QMActive::postLIFO(e)` on the posted event's record:
the guarded refCtr increment (lines 212-214), `none` when the overflow
assertion fires. -/
def postLIFOEvtEffect (nFree : Nat) (e : QEvt) : Option QEvt :=
  if nFree = 0 then none else some (refCtrStep e)

/-- `QMActive::get_()` (qf_actq.cpp lines 250-297).  In the cooperative
kernel `QACTIVE_EQUEUE_WAIT_` requires a non-empty queue, modelled by
returning `none` when `m_frontEvt` is null; `none` also models the fatal
assertion `Q_ASSERT_ID(310)`. -/
def QMActive.get_ {α : Type} (q : QEQueue α) : Option (α × QEQueue α) :=
  match q.m_frontEvt with
  | none => none
  | some e =>
    let nFree := q.m_nFree + 1
    if nFree ≤ q.m_end then
      let front' := ringAt q.m_ring q.m_tail
      let tail' := (if q.m_tail = 0 then q.m_end else q.m_tail) - 1
      some (e, { q with m_frontEvt := front', m_nFree := nFree,
                        m_tail := tail' })
    else
      if nFree = q.m_end + 1 then
        some (e, { q with m_frontEvt := none, m_nFree := nFree })
      else
        none

/-- Modelled from the spec: `QEQueue::init` (qequeue.h is not part of the
sources) — a freshly constructed queue of ring capacity `c` is empty:
null front event, all-free count `nFree == capacity + 1` counting the front
slot, `head = tail = 0`, and `nMin` starting at `nFree`. -/
def initQ (α : Type) (c : Nat) : QEQueue α :=
  { m_frontEvt := none
    m_ring := List.replicate c none
    m_head := 0
    m_tail := 0
    m_end := c
    m_nFree := c + 1
    m_nMin := c + 1 }

/-- `QF::getQueueMin(prio)` (qf_actq.cpp lines 316-328): requires
`prio <= QF_MAX_ACTIVE` and a started active object at `prio`
(`Q_REQUIRE_ID(400)`, modelled as `none`), and returns that object's queue
minimum `m_nMin`, touching no state. -/
def QF.getQueueMin {α : Type} (active : Nat → Option (QEQueue α))
    (maxActive prio : Nat) : Option Nat :=
  if prio ≤ maxActive then
    match active prio with
    | some ao => some ao.m_nMin
    | none => none
  else
    none

/-- One queue operation, for reasoning about operation sequences. -/
inductive QOp (α : Type) where
  | fifo : α → Nat → QOp α
  | lifo : α → QOp α
  | get : QOp α
deriving DecidableEq, Repr

/-- Run a single operation; `none` when a fatal assertion fires or `get_`
is called on an empty queue (violated precondition). A FIFO post that
returns `false` is a normal step that leaves the state unchanged. -/
def stepQ {α : Type} (q : QEQueue α) : QOp α → Option (QEQueue α)
  | QOp.fifo e m => (QMActive.post_ q e m).map Prod.snd
  | QOp.lifo e => QMActive.postLIFO q e
  | QOp.get => (QMActive.get_ q).map Prod.snd

/-- Run a sequence of queue operations. -/
def runQ {α : Type} (q : QEQueue α) : List (QOp α) → Option (QEQueue α)
  | [] => some q
  | op :: ops => (stepQ q op).bind fun q' => runQ q' ops

/-- The minimum value `m_nFree` takes along a run (including the starting
and final states). -/
def traceMinFree {α : Type} (q : QEQueue α) : List (QOp α) → Option Nat
  | [] => some q.m_nFree
  | op :: ops =>
      (stepQ q op).bind fun q' => (traceMinFree q' ops).map (min q.m_nFree)

/-- Post a list of events FIFO with margin 0, requiring every post to
succeed (return `true`). -/
def postList {α : Type} (q : QEQueue α) : List α → Option (QEQueue α)
  | [] => some q
  | e :: es =>
    match QMActive.post_ q e 0 with
    | some (true, q') => postList q' es
    | _ => none

/-- Perform `k` consecutive `get_` calls, collecting the returned events in
order. -/
def getList {α : Type} (q : QEQueue α) : Nat → Option (List α × QEQueue α)
  | 0 => some ([], q)
  | Nat.succ k =>
    (QMActive.get_ q).bind fun p =>
      (getList p.2 k).map fun r => (p.1 :: r.1, r.2)

/-- Modelled from the spec: `QF_LOG2` (a port-supplied macro, by the spec
"the 1-based highest-set-bit function: log2(0) = 0,
log2(x>0) = 1 + floor(log2(x))"). -/
def QF_LOG2 (x : Nat) : Nat :=
  if x = 0 then 0 else Nat.log2 x + 1

/-- Bitwise NOT on a 32-bit word: `~x` of C on `uint32_t`. -/
def not32 (x : Nat) : Nat :=
  (2 ^ 32 - 1) ^^^ x

/-- `QP::QPSet`, the one-word form compiled when `QF_MAX_ACTIVE <= 32`
(qpset.h lines 56-106).  The `uint32_t` bitmask is a `Nat` kept below
`2^32`. -/
structure QPSet32 where
  m_bits : Nat
deriving DecidableEq, Repr

/-- `QPSet::setEmpty` (one-word form). -/
def QPSet32.setEmpty : QPSet32 := { m_bits := 0 }

/-- `QPSet::isEmpty` (one-word form). -/
def QPSet32.isEmpty (s : QPSet32) : Bool := s.m_bits == 0

/-- `QPSet::notEmpty` (one-word form). -/
def QPSet32.notEmpty (s : QPSet32) : Bool := s.m_bits != 0

/-- `QPSet::hasElement` (one-word form): tests bit `n - 1`. -/
def QPSet32.hasElement (s : QPSet32) (n : Nat) : Bool :=
  s.m_bits &&& (1 <<< (n - 1)) != 0

/-- `QPSet::insert` (one-word form): sets bit `n - 1`. -/
def QPSet32.insert (s : QPSet32) (n : Nat) : QPSet32 :=
  { m_bits := s.m_bits ||| (1 <<< (n - 1)) }

/-- `QPSet::remove` (one-word form): clears bit `n - 1`. -/
def QPSet32.remove (s : QPSet32) (n : Nat) : QPSet32 :=
  { m_bits := s.m_bits &&& not32 (1 <<< (n - 1)) }

/-- `QPSet::findMax` (one-word form, `QF_LOG2` inline variant,
qpset.h lines 99-101). -/
def QPSet32.findMax (s : QPSet32) : Nat :=
  QF_LOG2 s.m_bits

/-- `QP::QPSet`, the two-word form compiled when `QF_MAX_ACTIVE > 32`
(qpset.h lines 116-190).  `bits0` is `m_bits[0]` (elements 1..32), `bits1`
is `m_bits[1]` (elements 33..64). -/
structure QPSet64 where
  bits0 : Nat
  bits1 : Nat
deriving DecidableEq, Repr

/-- `QPSet::setEmpty` (two-word form). -/
def QPSet64.setEmpty : QPSet64 := { bits0 := 0, bits1 := 0 }

/-- `QPSet::isEmpty` (two-word form, qpset.h lines 130-134). -/
def QPSet64.isEmpty (s : QPSet64) : Bool :=
  if s.bits0 == 0 then s.bits1 == 0 else false

/-- `QPSet::notEmpty` (two-word form, qpset.h lines 138-142). -/
def QPSet64.notEmpty (s : QPSet64) : Bool :=
  if s.bits0 != 0 then true else s.bits1 != 0

/-- `QPSet::hasElement` (two-word form, qpset.h lines 145-153). -/
def QPSet64.hasElement (s : QPSet64) (n : Nat) : Bool :=
  if n ≤ 32 then
    s.bits0 &&& (1 <<< (n - 1)) != 0
  else
    s.bits1 &&& (1 <<< (n - 33)) != 0

/-- `QPSet::insert` (two-word form, qpset.h lines 156-165). -/
def QPSet64.insert (s : QPSet64) (n : Nat) : QPSet64 :=
  if n ≤ 32 then
    { s with bits0 := s.bits0 ||| (1 <<< (n - 1)) }
  else
    { s with bits1 := s.bits1 ||| (1 <<< (n - 33)) }

/-- `QPSet::remove` (two-word form, qpset.h lines 168-177). -/
def QPSet64.remove (s : QPSet64) (n : Nat) : QPSet64 :=
  if n ≤ 32 then
    { s with bits0 := s.bits0 &&& not32 (1 <<< (n - 1)) }
  else
    { s with bits1 := s.bits1 &&& not32 (1 <<< (n - 33)) }

/-- `QPSet::findMax` (two-word form, `QF_LOG2` inline variant,
qpset.h lines 181-185): high word first. -/
def QPSet64.findMax (s : QPSet64) : Nat :=
  if s.bits1 ≠ 0 then QF_LOG2 s.bits1 + 32 else QF_LOG2 s.bits0

/-- One priority-set operation. -/
inductive PSOp where
  | ins : Nat → PSOp
  | rem : Nat → PSOp
deriving DecidableEq, Repr

/-- The element an operation acts on. -/
def PSOp.elem : PSOp → Nat
  | PSOp.ins n => n
  | PSOp.rem n => n

/-- Run a sequence of operations on the two-word priority set, starting
from `setEmpty`. -/
def runPS64 : List PSOp → QPSet64
  | [] => QPSet64.setEmpty
  | op :: ops =>
    let s := runPS64 ops
    match op with
    | PSOp.ins n => s.insert n
    | PSOp.rem n => s.remove n

/-- Run a sequence of operations on the one-word priority set, starting
from `setEmpty`. -/
def runPS32 : List PSOp → QPSet32
  | [] => QPSet32.setEmpty
  | op :: ops =>
    let s := runPS32 ops
    match op with
    | PSOp.ins n => s.insert n
    | PSOp.rem n => s.remove n

/-- The abstract set of priorities described by an operation sequence
(newest operation first, matching `runPS64`/`runPS32`). -/
def absPS : List PSOp → Finset Nat
  | [] => ∅
  | PSOp.ins n :: ops => insert n (absPS ops)
  | PSOp.rem n :: ops => (absPS ops).erase n


/-- C1: For every queue state and every margin, `post_` returns true iff the
value of `nFree` read at entry is strictly greater than `margin`; on success
it decrements `nFree` by exactly one and stores the event into `frontEvt`
when the queue was empty, otherwise into `ring[head]` with the
wrap-then-decrement head discipline. -/
theorem claim_C1 {α : Type} (q : QEQueue α) (e : α) (margin : Nat) :
    ((QMActive.post_ q e margin).map Prod.fst = some true ↔
      margin < q.m_nFree) ∧
    (margin < q.m_nFree →
      ∃ q', QMActive.post_ q e margin = some (true, q') ∧
        q'.m_nFree = q.m_nFree - 1 ∧
        (q.m_frontEvt = none →
          q'.m_frontEvt = some e ∧ q'.m_ring = q.m_ring ∧
          q'.m_head = q.m_head ∧ q'.m_tail = q.m_tail) ∧
        (q.m_frontEvt ≠ none →
          q'.m_frontEvt = q.m_frontEvt ∧
          q'.m_ring = q.m_ring.set q.m_head (some e) ∧
          q'.m_head = (if q.m_head = 0 then q.m_end else q.m_head) - 1 ∧
          q'.m_tail = q.m_tail)) := by
  constructor
  · by_cases h : margin < q.m_nFree <;>
      by_cases hm : margin = 0 <;>
        cases hf : q.m_frontEvt <;>
          simp [QMActive.post_, h, hm, hf] <;> omega
  · intro h
    cases hf : q.m_frontEvt
    · have hpost : QMActive.post_ q e margin =
          some (true, { q with m_frontEvt := some e,
                               m_nFree := q.m_nFree - 1,
                               m_nMin := if q.m_nFree - 1 < q.m_nMin then
                                 q.m_nFree - 1 else q.m_nMin }) := by
        simp [QMActive.post_, h, hf]
      refine ⟨_, hpost, rfl, ?_, ?_⟩
      · intro _; exact ⟨rfl, rfl, rfl, rfl⟩
      · intro hne; exact absurd rfl hne
    · have hpost : QMActive.post_ q e margin =
          some (true, { q with m_ring := q.m_ring.set q.m_head (some e),
                               m_head := (if q.m_head = 0 then q.m_end
                                 else q.m_head) - 1,
                               m_nFree := q.m_nFree - 1,
                               m_nMin := if q.m_nFree - 1 < q.m_nMin then
                                 q.m_nFree - 1 else q.m_nMin }) := by
        simp [QMActive.post_, h, hf]
      refine ⟨_, hpost, rfl, ?_, ?_⟩
      · intro hn; cases hn
      · intro _; exact ⟨hf, rfl, rfl, rfl⟩

/-- Witness for C1 at a concrete input. -/
theorem claim_C1_witness :
    ∃ q', QMActive.post_ (initQ Nat 2) 7 0 = some (true, q') ∧
      q'.m_nFree = (initQ Nat 2).m_nFree - 1 ∧
      ((initQ Nat 2).m_frontEvt = none →
        q'.m_frontEvt = some 7 ∧ q'.m_ring = (initQ Nat 2).m_ring ∧
        q'.m_head = (initQ Nat 2).m_head ∧
        q'.m_tail = (initQ Nat 2).m_tail) ∧
      ((initQ Nat 2).m_frontEvt ≠ none →
        q'.m_frontEvt = (initQ Nat 2).m_frontEvt ∧
        q'.m_ring = (initQ Nat 2).m_ring.set (initQ Nat 2).m_head (some 7) ∧
        q'.m_head =
          (if (initQ Nat 2).m_head = 0 then (initQ Nat 2).m_end
           else (initQ Nat 2).m_head) - 1 ∧
        q'.m_tail = (initQ Nat 2).m_tail) :=
  (claim_C1 (initQ Nat 2) 7 0).2 (by decide)

/-- C5: a FIFO post with positive margin into a queue whose free count does
not exceed the margin returns `false`, garbage-collects the rejected event,
and leaves the whole queue state unchanged. -/
theorem claim_C5 {α : Type} (q : QEQueue α) (p : α) (e : QEvt)
    (margin : Nat) (hm : 0 < margin) (hn : q.m_nFree ≤ margin) :
    QMActive.post_ q p margin = some (false, q) ∧
    postEvtEffect q.m_nFree margin e = some (QF_gc e) := by
  have h : ¬ margin < q.m_nFree := Nat.not_lt.2 hn
  have hm' : margin ≠ 0 := Nat.pos_iff_ne_zero.mp hm
  constructor
  · cases hf : q.m_frontEvt <;> simp [QMActive.post_, h, hm']
  · simp [postEvtEffect, h, hm']

/-- Witness for C5 at a concrete input. -/
theorem claim_C5_witness :
    QMActive.post_ { m_frontEvt := some 1, m_ring := [none, none],
                     m_head := 0, m_tail := 0, m_end := 2, m_nFree := 1,
                     m_nMin := 1 } (5 : Nat) 1 =
      some (false, { m_frontEvt := some 1, m_ring := [none, none],
                     m_head := 0, m_tail := 0, m_end := 2, m_nFree := 1,
                     m_nMin := 1 }) ∧
    postEvtEffect 1 1 { sig := 4, poolId := 2, refCtr := 1 } =
      some (QF_gc { sig := 4, poolId := 2, refCtr := 1 }) :=
  claim_C5 _ 5 _ 1 (by decide) (by decide)

/-- C6: overflow is fatal rather than silent: `post_` with margin 0 and no
room fires the assertion (modelled as `none`) and never returns `false`;
`postLIFO` with `nFree == 0` fires its assertion; and under the documented
preconditions (free space available) neither assertion branch is reached. -/
theorem claim_C6 {α : Type} (q : QEQueue α) (e : α) :
    (QMActive.post_ q e 0 = none ↔ q.m_nFree = 0) ∧
    (∀ b q', QMActive.post_ q e 0 = some (b, q') → b = true) ∧
    (QMActive.postLIFO q e = none ↔ q.m_nFree = 0) ∧
    (q.m_nFree ≠ 0 →
      (QMActive.postLIFO q e).isSome ∧ (QMActive.post_ q e 0).isSome) := by
  refine ⟨?_, ?_, ?_, ?_⟩
  · by_cases h : 0 < q.m_nFree <;>
      cases hf : q.m_frontEvt <;>
        simp [QMActive.post_, h, hf] <;> omega
  · intro b q' hpost
    by_cases h : 0 < q.m_nFree
    · cases hf : q.m_frontEvt <;>
        simp [QMActive.post_, h, hf] at hpost <;> exact hpost.1
    · simp [QMActive.post_, h] at hpost
  · by_cases h : q.m_nFree = 0 <;>
      cases hf : q.m_frontEvt <;>
        simp [QMActive.postLIFO, h, hf]
  · intro h
    have h' : 0 < q.m_nFree := Nat.pos_of_ne_zero h
    cases hf : q.m_frontEvt <;>
      constructor <;> simp [QMActive.postLIFO, QMActive.post_, h, h', hf]

/-- Witness for C6 at a concrete input. -/
theorem claim_C6_witness :
    (QMActive.post_ (initQ Nat 1) 3 0 = none ↔ (initQ Nat 1).m_nFree = 0) ∧
    (∀ b q', QMActive.post_ (initQ Nat 1) 3 0 = some (b, q') → b = true) ∧
    (QMActive.postLIFO (initQ Nat 1) 3 = none ↔ (initQ Nat 1).m_nFree = 0) ∧
    ((initQ Nat 1).m_nFree ≠ 0 →
      (QMActive.postLIFO (initQ Nat 1) 3).isSome ∧
      (QMActive.post_ (initQ Nat 1) 3 0).isSome) :=
  claim_C6 (initQ Nat 1) 3

/-- C9: every successful enqueue (a `post_` that returns true, or a
`postLIFO` that passes its assertion) increments the posted event's
`refCtr` by exactly one when `poolId ≠ 0`, leaves `refCtr` untouched when
`poolId == 0`, and never writes any other event field. -/
theorem claim_C9 (nFree margin : Nat) (e : QEvt) :
    (margin < nFree →
      postEvtEffect nFree margin e = some (refCtrStep e)) ∧
    (nFree ≠ 0 → postLIFOEvtEffect nFree e = some (refCtrStep e)) ∧
    (e.poolId ≠ 0 → (refCtrStep e).refCtr = e.refCtr + 1) ∧
    (e.poolId = 0 → refCtrStep e = e) ∧
    (refCtrStep e).sig = e.sig ∧
    (refCtrStep e).poolId = e.poolId := by
  refine ⟨?_, ?_, ?_, ?_, ?_, ?_⟩
  · intro h; simp [postEvtEffect, h]
  · intro h; simp [postLIFOEvtEffect, h]
  · intro h; simp [refCtrStep, QF_EVT_REF_CTR_INC_, h]
  · intro h; simp [refCtrStep, h]
  · by_cases h : e.poolId = 0 <;> simp [refCtrStep, QF_EVT_REF_CTR_INC_, h]
  · by_cases h : e.poolId = 0 <;> simp [refCtrStep, QF_EVT_REF_CTR_INC_, h]

/-- Witness for C9 at a concrete input. -/
theorem claim_C9_witness :
    ((1 : Nat) < 2 →
      postEvtEffect 2 1 { sig := 9, poolId := 3, refCtr := 5 } =
        some (refCtrStep { sig := 9, poolId := 3, refCtr := 5 })) ∧
    ((2 : Nat) ≠ 0 →
      postLIFOEvtEffect 2 { sig := 9, poolId := 3, refCtr := 5 } =
        some (refCtrStep { sig := 9, poolId := 3, refCtr := 5 })) ∧
    (QEvt.poolId { sig := 9, poolId := 3, refCtr := 5 } ≠ 0 →
      (refCtrStep { sig := 9, poolId := 3, refCtr := 5 }).refCtr =
        QEvt.refCtr { sig := 9, poolId := 3, refCtr := 5 } + 1) ∧
    (QEvt.poolId { sig := 9, poolId := 3, refCtr := 5 } = 0 →
      refCtrStep { sig := 9, poolId := 3, refCtr := 5 } =
        { sig := 9, poolId := 3, refCtr := 5 }) ∧
    (refCtrStep { sig := 9, poolId := 3, refCtr := 5 }).sig =
      QEvt.sig { sig := 9, poolId := 3, refCtr := 5 } ∧
    (refCtrStep { sig := 9, poolId := 3, refCtr := 5 }).poolId =
      QEvt.poolId { sig := 9, poolId := 3, refCtr := 5 } :=
  claim_C9 2 1 { sig := 9, poolId := 3, refCtr := 5 }

/-- C10: in both the one-word and the two-word form of the priority set,
`notEmpty` returns exactly the negation of `isEmpty`. -/
theorem claim_C10 :
    (∀ s : QPSet32, s.notEmpty = !s.isEmpty) ∧
    (∀ s : QPSet64, s.notEmpty = !s.isEmpty) := by
  constructor
  · intro s
    by_cases h : s.m_bits = 0 <;>
      simp [QPSet32.notEmpty, QPSet32.isEmpty, bne, h]
  · intro s
    by_cases h0 : s.bits0 = 0 <;> by_cases h1 : s.bits1 = 0 <;>
      simp [QPSet64.notEmpty, QPSet64.isEmpty, bne, h0, h1]

/-- One step backwards through the ring indices with the wrap-then-decrement
discipline: from 0 wrap to `c` and decrement, otherwise decrement. -/
def predIdx (c i : Nat) : Nat :=
  if i = 0 then c - 1 else i - 1

/-- `j` steps backwards through the ring indices. -/
def downN (c : Nat) : Nat → Nat → Nat
  | i, 0 => i
  | i, Nat.succ n => downN c (predIdx c i) n

/-- The `n` ring cells read starting at index `i` and walking backwards
(the order in which `get_` consumes them). -/
def ringSeg {α : Type} (r : List (Option α)) (c : Nat) :
    Nat → Nat → List (Option α)
  | _, 0 => []
  | i, Nat.succ n => ringAt r i :: ringSeg r c (predIdx c i) n

/-- The refinement relation: queue state `q` (ring capacity `c`) holds
exactly the events `L`, in consumption order — `L.head?` in the front slot
and the rest in the ring walking backwards from `tail`, with `head` one
below the last occupied cell. -/
def Abs {α : Type} (c : Nat) (q : QEQueue α) (L : List α) : Prop :=
  0 < c ∧ q.m_end = c ∧ q.m_ring.length = c ∧ q.m_head < c ∧
  q.m_nFree + L.length = c + 1 ∧
  q.m_frontEvt = L.head? ∧
  q.m_tail = (q.m_head + (L.length - 1)) % c ∧
  ringSeg q.m_ring c q.m_tail (L.length - 1) = (L.drop 1).map some

theorem mod_idem (a c : Nat) : a % c % c = a % c :=
  Nat.mod_mod_of_dvd a dvd_rfl

theorem addModLeft (a b c : Nat) : (a % c + b) % c = (a + b) % c := by
  conv_rhs => rw [Nat.add_mod]
  rw [Nat.add_mod (a % c) b, mod_idem]

theorem mod_pred (c a : Nat) (hc : 0 < c) (ha : 1 ≤ a) :
    predIdx c (a % c) = (a - 1) % c := by
  rcases Nat.eq_zero_or_pos (a % c) with h | h
  · have hd := Nat.div_add_mod a c
    have hq : 1 ≤ a / c := by
      rcases Nat.eq_zero_or_pos (a / c) with h0 | h0
      · rw [h0, Nat.mul_zero] at hd
        omega
      · exact h0
    obtain ⟨q', hq'⟩ : ∃ q', a / c = q' + 1 := ⟨a / c - 1, by omega⟩
    rw [hq', Nat.mul_succ] at hd
    have h1 : a - 1 = c * q' + (c - 1) := by omega
    rw [h, h1, Nat.mul_add_mod]
    show predIdx c 0 = (c - 1) % c
    rw [Nat.mod_eq_of_lt (by omega)]
    simp [predIdx]
  · have hne : a % c ≠ 0 := Nat.pos_iff_ne_zero.mp h
    have hd := Nat.div_add_mod a c
    have h1 : a - 1 = c * (a / c) + (a % c - 1) := by omega
    rw [h1, Nat.mul_add_mod]
    have hlt : a % c - 1 < c := by
      have := Nat.mod_lt a hc
      omega
    rw [Nat.mod_eq_of_lt hlt]
    simp [predIdx, hne]

theorem downN_succ (c : Nat) : ∀ (n i : Nat),
    downN c i (n + 1) = predIdx c (downN c i n)
  | 0, _ => rfl
  | n + 1, i => downN_succ c n (predIdx c i)

theorem downN_eq (c i : Nat) (hc : 0 < c) (hi : i < c) :
    ∀ j, j ≤ c → downN c i j = (i + c - j) % c := by
  intro j
  induction j with
  | zero =>
    intro _
    show i = (i + c) % c
    rw [Nat.add_mod_right, Nat.mod_eq_of_lt hi]
  | succ j ih =>
    intro hj
    rw [downN_succ, ih (by omega), mod_pred c (i + c - j) hc (by omega)]
    congr 1

theorem ringAt_set_ne {α : Type} (r : List (Option α)) (k i : Nat)
    (v : Option α) (h : i ≠ k) : ringAt (r.set k v) i = ringAt r i := by
  induction r generalizing i k with
  | nil => simp [List.set]
  | cons a r ih =>
    cases k with
    | zero =>
      cases i with
      | zero => exact absurd rfl h
      | succ i => simp [ringAt, List.set]
    | succ k =>
      cases i with
      | zero => simp [ringAt, List.set]
      | succ i =>
        show ringAt (r.set k v) i = ringAt r i
        exact ih k i (by omega)

theorem ringAt_set_self {α : Type} (r : List (Option α)) (k : Nat)
    (v : Option α) (h : k < r.length) : ringAt (r.set k v) k = v := by
  induction r generalizing k with
  | nil => simp at h
  | cons a r ih =>
    cases k with
    | zero => simp [ringAt, List.set]
    | succ k =>
      show ringAt (r.set k v) k = v
      exact ih k (by simpa using h)

theorem ringSeg_set_outside {α : Type} (r : List (Option α)) (c k : Nat)
    (v : Option α) : ∀ (n i : Nat), (∀ j, j < n → downN c i j ≠ k) →
    ringSeg (r.set k v) c i n = ringSeg r c i n
  | 0, _, _ => rfl
  | n + 1, i, h => by
    show ringAt (r.set k v) i :: _ = ringAt r i :: _
    rw [ringAt_set_ne r k i v (h 0 (by omega)),
        ringSeg_set_outside r c k v n (predIdx c i)
          (fun j hj => h (j + 1) (by omega))]

theorem ringSeg_snoc {α : Type} (r : List (Option α)) (c : Nat) :
    ∀ (n i : Nat),
      ringSeg r c i (n + 1) = ringSeg r c i n ++ [ringAt r (downN c i n)]
  | 0, _ => rfl
  | n + 1, i => by
    show ringAt r i :: ringSeg r c (predIdx c i) (n + 1) = _
    rw [ringSeg_snoc r c n (predIdx c i)]
    rfl

theorem downN_full (c head n : Nat) (hc : 0 < c) (hh : head < c)
    (hn : n ≤ c) : downN c ((head + n) % c) n = head := by
  rw [downN_eq c _ hc (Nat.mod_lt _ hc) n hn]
  have h1 : (head + n) % c + c - n = (head + n) % c + (c - n) := by omega
  rw [h1, addModLeft]
  have h2 : head + n + (c - n) = head + c := by omega
  rw [h2, Nat.add_mod_right, Nat.mod_eq_of_lt hh]

theorem downN_ne_head (c head n j : Nat) (hc : 0 < c) (hh : head < c)
    (hn : n < c) (hj : j < n) : downN c ((head + n) % c) j ≠ head := by
  rw [downN_eq c _ hc (Nat.mod_lt _ hc) j (by omega)]
  have h1 : (head + n) % c + c - j = (head + n) % c + (c - j) := by omega
  rw [h1, addModLeft]
  have h2 : head + n + (c - j) = head + (n - j) + c := by omega
  rw [h2, Nat.add_mod_right]
  intro hEq
  rcases Nat.lt_or_ge (head + (n - j)) c with hA | hA
  · rw [Nat.mod_eq_of_lt hA] at hEq
    omega
  · rw [Nat.mod_eq_sub_mod hA, Nat.mod_eq_of_lt (by omega)] at hEq
    omega

theorem downN_ne_next (c head n j : Nat) (hc : 0 < c) (hh : head < c)
    (hn : n + 1 ≤ c) (hj : j < n) :
    downN c ((head + n) % c) j ≠ (head + n + 1) % c := by
  rw [downN_eq c _ hc (Nat.mod_lt _ hc) j (by omega)]
  have h1 : (head + n) % c + c - j = (head + n) % c + (c - j) := by omega
  rw [h1, addModLeft]
  have h2 : head + n + (c - j) = head + (n - j) + c := by omega
  rw [h2, Nat.add_mod_right]
  intro hEq
  rcases Nat.lt_or_ge (head + (n - j)) c with hA | hA
  · rw [Nat.mod_eq_of_lt hA] at hEq
    rcases Nat.lt_or_ge (head + n + 1) c with hB | hB
    · rw [Nat.mod_eq_of_lt hB] at hEq
      omega
    · rw [Nat.mod_eq_sub_mod hB, Nat.mod_eq_of_lt (by omega)] at hEq
      omega
  · rw [Nat.mod_eq_sub_mod hA, Nat.mod_eq_of_lt (by omega)] at hEq
    rcases Nat.lt_or_ge (head + n + 1) c with hB | hB
    · rw [Nat.mod_eq_of_lt hB] at hEq
      omega
    · rw [Nat.mod_eq_sub_mod hB, Nat.mod_eq_of_lt (by omega)] at hEq
      omega

theorem Abs_initQ (α : Type) (c : Nat) (hc : 0 < c) :
    Abs c (initQ α c) [] := by
  refine ⟨hc, rfl, ?_, hc, rfl, rfl, ?_, rfl⟩
  · simp [initQ]
  · show (0 : Nat) = (0 + (0 - 1)) % c
    simp

theorem Abs_post {α : Type} {c : Nat} {q : QEQueue α} {L : List α}
    (e : α) (margin : Nat) (h : Abs c q L) (hm : margin < q.m_nFree) :
    ∃ q', QMActive.post_ q e margin = some (true, q') ∧
      Abs c q' (L ++ [e]) := by
  obtain ⟨hc, hend, hlen, hhead, hacc, hfront, htail, hseg⟩ := h
  cases L with
  | nil =>
    have hf : q.m_frontEvt = none := by simpa using hfront
    have hpost : QMActive.post_ q e margin =
        some (true, { q with m_frontEvt := some e,
                             m_nFree := q.m_nFree - 1,
                             m_nMin := if q.m_nFree - 1 < q.m_nMin then
                               q.m_nFree - 1 else q.m_nMin }) := by
      simp [QMActive.post_, hm, hf]
    refine ⟨_, hpost, hc, hend, hlen, hhead, ?_, rfl, ?_, rfl⟩
    · simp at hacc ⊢
      omega
    · simpa using htail
  | cons x xs =>
    have hf : q.m_frontEvt = some x := by simpa using hfront
    have hlenL : q.m_nFree + (xs.length + 1) = c + 1 := by simpa using hacc
    have hxs : xs.length < c := by omega
    have htailn : q.m_tail = (q.m_head + xs.length) % c := by
      simpa using htail
    have hsegn : ringSeg q.m_ring c q.m_tail xs.length = xs.map some := by
      simpa using hseg
    have hpost : QMActive.post_ q e margin =
        some (true, { q with m_ring := q.m_ring.set q.m_head (some e),
                             m_head := (if q.m_head = 0 then q.m_end
                               else q.m_head) - 1,
                             m_nFree := q.m_nFree - 1,
                             m_nMin := if q.m_nFree - 1 < q.m_nMin then
                               q.m_nFree - 1 else q.m_nMin }) := by
      simp [QMActive.post_, hm, hf]
    have hhead'lt : (if q.m_head = 0 then q.m_end else q.m_head) - 1 < c := by
      by_cases h0 : q.m_head = 0 <;> simp [h0, hend] <;> omega
    have hsucc : ((if q.m_head = 0 then q.m_end else q.m_head) - 1 + 1) % c =
        q.m_head := by
      by_cases h0 : q.m_head = 0
      · rw [if_pos h0, hend, Nat.sub_add_cancel hc, Nat.mod_self, h0]
      · rw [if_neg h0, Nat.sub_add_cancel (Nat.pos_of_ne_zero h0),
            Nat.mod_eq_of_lt hhead]
    have hdown : downN c q.m_tail xs.length = q.m_head := by
      rw [htailn]
      exact downN_full c q.m_head xs.length hc hhead (by omega)
    have hseg' : ringSeg (q.m_ring.set q.m_head (some e)) c q.m_tail
        (xs.length + 1) = xs.map some ++ [some e] := by
      rw [ringSeg_snoc, hdown,
          ringAt_set_self _ _ _ (by rw [hlen]; exact hhead)]
      congr 1
      rw [ringSeg_set_outside]
      · exact hsegn
      · intro j hj
        rw [htailn]
        exact downN_ne_head c q.m_head xs.length j hc hhead hxs hj
    refine ⟨_, hpost, hc, hend, ?_, hhead'lt, ?_, ?_, ?_, ?_⟩
    · rw [List.length_set]
      exact hlen
    · simp at hlenL ⊢
      omega
    · simpa using hf
    · show q.m_tail =
        ((if q.m_head = 0 then q.m_end else q.m_head) - 1 +
          ((x :: (xs ++ [e])).length - 1)) % c
      have hlen2 : (x :: (xs ++ [e])).length - 1 = xs.length + 1 := by simp
      rw [hlen2]
      have harr : (if q.m_head = 0 then q.m_end else q.m_head) - 1 +
          (xs.length + 1) =
          ((if q.m_head = 0 then q.m_end else q.m_head) - 1 + 1) +
            xs.length := by omega
      rw [harr,
          ← addModLeft ((if q.m_head = 0 then q.m_end else q.m_head) - 1 + 1)
            xs.length c,
          hsucc, htailn]
    · show ringSeg (q.m_ring.set q.m_head (some e)) c q.m_tail
          ((x :: (xs ++ [e])).length - 1) =
        ((x :: (xs ++ [e])).drop 1).map some
      have hlen3 : (x :: (xs ++ [e])).length - 1 = xs.length + 1 := by simp
      rw [hlen3, hseg']
      simp

theorem Abs_lifo {α : Type} {c : Nat} {q : QEQueue α} {L : List α}
    (e : α) (h : Abs c q L) (hfree : q.m_nFree ≠ 0) :
    ∃ q', QMActive.postLIFO q e = some q' ∧ Abs c q' (e :: L) := by
  obtain ⟨hc, hend, hlen, hhead, hacc, hfront, htail, hseg⟩ := h
  cases L with
  | nil =>
    have hf : q.m_frontEvt = none := by simpa using hfront
    have hpost : QMActive.postLIFO q e =
        some { q with m_frontEvt := some e,
                      m_nFree := q.m_nFree - 1,
                      m_nMin := if q.m_nFree - 1 < q.m_nMin then
                        q.m_nFree - 1 else q.m_nMin } := by
      simp [QMActive.postLIFO, hfree, hf]
    refine ⟨_, hpost, hc, hend, hlen, hhead, ?_, rfl, ?_, rfl⟩
    · simp at hacc ⊢
      omega
    · simpa using htail
  | cons x xs =>
    have hf : q.m_frontEvt = some x := by simpa using hfront
    have hlenL : q.m_nFree + (xs.length + 1) = c + 1 := by simpa using hacc
    have hxs : xs.length + 1 ≤ c := by omega
    have htailn : q.m_tail = (q.m_head + xs.length) % c := by
      simpa using htail
    have hsegn : ringSeg q.m_ring c q.m_tail xs.length = xs.map some := by
      simpa using hseg
    have htail_lt : q.m_tail < c := by
      rw [htailn]
      exact Nat.mod_lt _ hc
    have hpost : QMActive.postLIFO q e =
        some { q with m_frontEvt := some e,
                      m_nFree := q.m_nFree - 1,
                      m_nMin := if q.m_nFree - 1 < q.m_nMin then
                        q.m_nFree - 1 else q.m_nMin,
                      m_tail := if q.m_tail + 1 = q.m_end then 0
                        else q.m_tail + 1,
                      m_ring := q.m_ring.set
                        (if q.m_tail + 1 = q.m_end then 0 else q.m_tail + 1)
                        (some x) } := by
      simp [QMActive.postLIFO, hfree, hf]
    have htl_mod : (if q.m_tail + 1 = q.m_end then 0 else q.m_tail + 1) =
        (q.m_tail + 1) % c := by
      by_cases h0 : q.m_tail + 1 = q.m_end
      · rw [if_pos h0, h0, hend, Nat.mod_self]
      · rw [if_neg h0, Nat.mod_eq_of_lt]
        rw [hend] at h0
        omega
    have htl_lt : (q.m_tail + 1) % c < c := Nat.mod_lt _ hc
    have hptail : predIdx c ((q.m_tail + 1) % c) = q.m_tail := by
      rw [mod_pred c _ hc (by omega)]
      simp [Nat.mod_eq_of_lt htail_lt]
    have hseg' : ringSeg (q.m_ring.set ((q.m_tail + 1) % c) (some x)) c
        ((q.m_tail + 1) % c) (xs.length + 1) = some x :: xs.map some := by
      show ringAt (q.m_ring.set ((q.m_tail + 1) % c) (some x))
          ((q.m_tail + 1) % c) ::
        ringSeg (q.m_ring.set ((q.m_tail + 1) % c) (some x)) c
          (predIdx c ((q.m_tail + 1) % c)) xs.length = _
      rw [ringAt_set_self _ _ _ (by rw [hlen]; exact htl_lt), hptail]
      congr 1
      rw [ringSeg_set_outside]
      · exact hsegn
      · intro j hj
        rw [htailn, addModLeft]
        exact downN_ne_next c q.m_head xs.length j hc hhead hxs hj
    refine ⟨_, hpost, hc, hend, ?_, hhead, ?_, rfl, ?_, ?_⟩
    · rw [List.length_set]
      exact hlen
    · simp at hlenL ⊢
      omega
    · show (if q.m_tail + 1 = q.m_end then 0 else q.m_tail + 1) =
        (q.m_head + ((e :: x :: xs).length - 1)) % c
      rw [htl_mod, htailn, addModLeft]
      simp only [List.length_cons]
      congr 1
    · show ringSeg (q.m_ring.set
          (if q.m_tail + 1 = q.m_end then 0 else q.m_tail + 1) (some x)) c
          (if q.m_tail + 1 = q.m_end then 0 else q.m_tail + 1)
          ((e :: x :: xs).length - 1) =
        ((e :: x :: xs).drop 1).map some
      rw [htl_mod]
      simp only [List.length_cons, List.drop_one, List.tail_cons,
        List.map_cons]
      have hl : xs.length + 1 + 1 - 1 = xs.length + 1 := by omega
      rw [hl, hseg']

theorem Abs_get {α : Type} {c : Nat} {q : QEQueue α} {x : α} {L : List α}
    (h : Abs c q (x :: L)) :
    ∃ q', QMActive.get_ q = some (x, q') ∧ Abs c q' L := by
  obtain ⟨hc, hend, hlen, hhead, hacc, hfront, htail, hseg⟩ := h
  have hf : q.m_frontEvt = some x := by simpa using hfront
  cases L with
  | nil =>
    have hn : q.m_nFree = c := by
      simp at hacc
      omega
    have h1 : ¬ (q.m_nFree + 1 ≤ q.m_end) := by omega
    have h2 : q.m_nFree + 1 = q.m_end + 1 := by omega
    have hg : QMActive.get_ q =
        some (x, { q with m_frontEvt := none,
                          m_nFree := q.m_nFree + 1 }) := by
      simp [QMActive.get_, hf, h1, h2]
    refine ⟨_, hg, hc, hend, hlen, hhead, ?_, rfl, ?_, rfl⟩
    · simp
      omega
    · simpa using htail
  | cons y ys =>
    have hlenL : q.m_nFree + (ys.length + 2) = c + 1 := by simpa using hacc
    have htailn : q.m_tail = (q.m_head + (ys.length + 1)) % c := by
      simpa using htail
    have htail_lt : q.m_tail < c := by
      rw [htailn]
      exact Nat.mod_lt _ hc
    have hsegn : ringSeg q.m_ring c q.m_tail (ys.length + 1) =
        some y :: ys.map some := by simpa using hseg
    have hcons : ringAt q.m_ring q.m_tail ::
        ringSeg q.m_ring c (predIdx c q.m_tail) ys.length =
        some y :: ys.map some := hsegn
    have hfirst : ringAt q.m_ring q.m_tail = some y :=
      (List.cons.injEq _ _ _ _ ▸ hcons).1
    have hrest : ringSeg q.m_ring c (predIdx c q.m_tail) ys.length =
        ys.map some := (List.cons.injEq _ _ _ _ ▸ hcons).2
    have h1 : q.m_nFree + 1 ≤ q.m_end := by omega
    have hg : QMActive.get_ q =
        some (x, { q with m_frontEvt := ringAt q.m_ring q.m_tail,
                          m_nFree := q.m_nFree + 1,
                          m_tail := (if q.m_tail = 0 then q.m_end
                            else q.m_tail) - 1 }) := by
      simp [QMActive.get_, hf, h1]
    have hpred : (if q.m_tail = 0 then q.m_end else q.m_tail) - 1 =
        predIdx c q.m_tail := by
      by_cases h0 : q.m_tail = 0 <;> simp [predIdx, h0, hend]
    have hptail : predIdx c q.m_tail = (q.m_head + ys.length) % c := by
      rw [htailn, mod_pred c _ hc (by omega)]
      congr 1
    refine ⟨_, hg, hc, hend, hlen, hhead, ?_, ?_, ?_, ?_⟩
    · simp
      omega
    · simpa using hfirst
    · show (if q.m_tail = 0 then q.m_end else q.m_tail) - 1 =
        (q.m_head + ((y :: ys).length - 1)) % c
      rw [hpred, hptail]
      simp
    · show ringSeg q.m_ring c
          ((if q.m_tail = 0 then q.m_end else q.m_tail) - 1)
          ((y :: ys).length - 1) = ((y :: ys).drop 1).map some
      rw [hpred]
      simpa using hrest

theorem Abs_step {α : Type} {c : Nat} {q q' : QEQueue α} {L : List α}
    (h : Abs c q L) (op : QOp α) (hs : stepQ q op = some q') :
    ∃ L', Abs c q' L' := by
  cases op with
  | fifo e m =>
    rcases Nat.lt_or_ge m q.m_nFree with hlt | hge
    · obtain ⟨q2, hq2, habs⟩ := Abs_post e m h hlt
      have hq : stepQ q (QOp.fifo e m) = some q2 := by simp [stepQ, hq2]
      rw [hq] at hs
      exact ⟨L ++ [e], (Option.some.inj hs) ▸ habs⟩
    · by_cases hm0 : m = 0
      · have hnf : q.m_nFree = 0 := by omega
        have hnone : QMActive.post_ q e m = none := by
          simp [QMActive.post_, hm0, hnf]
        simp [stepQ, hnone] at hs
      · have hpost : QMActive.post_ q e m = some (false, q) := by
          simp [QMActive.post_, Nat.not_lt.2 hge, hm0]
        have hq : stepQ q (QOp.fifo e m) = some q := by simp [stepQ, hpost]
        rw [hq] at hs
        exact ⟨L, (Option.some.inj hs) ▸ h⟩
  | lifo e =>
    by_cases h0 : q.m_nFree = 0
    · have hnone : QMActive.postLIFO q e = none := by
        simp [QMActive.postLIFO, h0]
      simp [stepQ, hnone] at hs
    · obtain ⟨q2, hq2, habs⟩ := Abs_lifo e h h0
      have hq : stepQ q (QOp.lifo e) = some q2 := by simp [stepQ, hq2]
      rw [hq] at hs
      exact ⟨e :: L, (Option.some.inj hs) ▸ habs⟩
  | get =>
    cases L with
    | nil =>
      have hf : q.m_frontEvt = none := by
        simpa using h.2.2.2.2.2.1
      have hnone : QMActive.get_ q = none := by
        simp [QMActive.get_, hf]
      simp [stepQ, hnone] at hs
    | cons x xs =>
      obtain ⟨q2, hq2, habs⟩ := Abs_get h
      have hq : stepQ q QOp.get = some q2 := by simp [stepQ, hq2]
      rw [hq] at hs
      exact ⟨xs, (Option.some.inj hs) ▸ habs⟩

theorem Abs_run {α : Type} {c : Nat} :
    ∀ (ops : List (QOp α)) (q q' : QEQueue α) (L : List α),
      Abs c q L → runQ q ops = some q' → ∃ L', Abs c q' L'
  | [], q, q', L, h, hr => by
    simp [runQ] at hr
    exact ⟨L, hr ▸ h⟩
  | op :: ops, q, q', L, h, hr => by
    cases hstep : stepQ q op with
    | none => simp [runQ, hstep] at hr
    | some q1 =>
      have hr' : runQ q1 ops = some q' := by simpa [runQ, hstep] using hr
      obtain ⟨L1, h1⟩ := Abs_step h op hstep
      exact Abs_run ops q1 q' L1 h1 hr'

/-- C2: for every operation sequence that respects the preconditions,
started on a fresh queue, the steady-state invariant holds: `nFree` plus
the number of queued events equals `end + 1`, and `nFree = end + 1` exactly
when the front slot holds the empty sentinel. -/
theorem claim_C2 {α : Type} (c : Nat) (ops : List (QOp α))
    (q' : QEQueue α) (hc : 0 < c)
    (hrun : runQ (initQ α c) ops = some q') :
    ∃ L, Abs c q' L ∧ q'.m_nFree + L.length = c + 1 ∧
      (q'.m_nFree = c + 1 ↔ q'.m_frontEvt = none) := by
  obtain ⟨L, hL⟩ := Abs_run ops (initQ α c) q' [] (Abs_initQ α c hc) hrun
  have hacc : q'.m_nFree + L.length = c + 1 := hL.2.2.2.2.1
  have hfront : q'.m_frontEvt = L.head? := hL.2.2.2.2.2.1
  refine ⟨L, hL, hacc, ?_, ?_⟩
  · intro hfull
    have hlen0 : L.length = 0 := by omega
    rw [hfront, List.length_eq_zero.mp hlen0]
    rfl
  · intro hnone
    rw [hfront] at hnone
    cases L with
    | nil =>
      simp at hacc
      omega
    | cons a as => simp at hnone

/-- Witness for C2 at a concrete input. -/
theorem claim_C2_witness :
    ∃ L, Abs 2 { m_frontEvt := some 2, m_ring := [some 2, none],
                 m_head := 1, m_tail := 1, m_end := 2, m_nFree := 2,
                 m_nMin := 1 : QEQueue Nat } L ∧
      (2 : Nat) + L.length = 2 + 1 ∧
      ((2 : Nat) = 2 + 1 ↔
        (some 2 : Option Nat) = none) :=
  claim_C2 2 [QOp.fifo 1 0, QOp.fifo 2 0, QOp.get]
    { m_frontEvt := some 2, m_ring := [some 2, none], m_head := 1,
      m_tail := 1, m_end := 2, m_nFree := 2, m_nMin := 1 }
    (by decide) (by decide)

theorem Abs_postList {α : Type} {c : Nat} :
    ∀ (es : List α) (q : QEQueue α) (L : List α), Abs c q L →
      L.length + es.length ≤ c + 1 →
      ∃ q', postList q es = some q' ∧ Abs c q' (L ++ es)
  | [], q, L, h, _ => ⟨q, rfl, by simpa⟩
  | e :: es, q, L, h, hcap => by
    simp only [List.length_cons] at hcap
    have hfree : 0 < q.m_nFree := by
      have hacc := h.2.2.2.2.1
      omega
    obtain ⟨q1, hq1, h1⟩ := Abs_post e 0 h hfree
    obtain ⟨q', hq', h'⟩ := Abs_postList es q1 (L ++ [e]) h1 (by simp; omega)
    refine ⟨q', ?_, by simpa using h'⟩
    simp [postList, hq1]
    exact hq'

theorem Abs_getList {α : Type} {c : Nat} :
    ∀ (L : List α) (q : QEQueue α), Abs c q L →
      ∃ q', getList q L.length = some (L, q') ∧ Abs c q' []
  | [], q, h => ⟨q, rfl, h⟩
  | x :: L, q, h => by
    obtain ⟨q1, hq1, h1⟩ := Abs_get h
    obtain ⟨q', hq', h'⟩ := Abs_getList L q1 h1
    refine ⟨q', ?_, h'⟩
    show getList q (L.length + 1) = some (x :: L, q')
    simp [getList, hq1, hq']

/-- C3: posting `e1 .. ek` FIFO into a fresh queue with sufficient capacity
(every post succeeds), with no intervening LIFO post, makes the next `k`
`get_` calls return `e1 .. ek` in exactly the posting order. -/
theorem claim_C3 {α : Type} (c : Nat) (es : List α) (hc : 0 < c)
    (hcap : es.length ≤ c + 1) :
    ∃ q', postList (initQ α c) es = some q' ∧
      ∃ q'', getList q' es.length = some (es, q'') := by
  obtain ⟨q', hpost, habs⟩ :=
    Abs_postList es (initQ α c) [] (Abs_initQ α c hc) (by simpa)
  obtain ⟨q'', hget, _⟩ := Abs_getList es q' habs
  exact ⟨q', hpost, q'', hget⟩

/-- Witness for C3 at a concrete input. -/
theorem claim_C3_witness :
    ∃ q', postList (initQ Nat 4) [1, 2, 3, 4, 5] = some q' ∧
      ∃ q'', getList q' 5 = some ([1, 2, 3, 4, 5], q'') :=
  claim_C3 4 [1, 2, 3, 4, 5] (by decide) (by decide)

/-- C4: immediately after `postLIFO e` on a queue with `nFree ≠ 0` (and a
free count within its structural bound), the next `get_` returns `e`; and
concretely, with `e1` in the front slot and `e2` in the ring, after
`postLIFO e3` the next three `get_` calls return `e3, e1, e2` in order. -/
theorem claim_C4 :
    (∀ (α : Type) (q : QEQueue α) (e : α), q.m_nFree ≠ 0 →
      q.m_nFree ≤ q.m_end + 1 →
      ((QMActive.postLIFO q e).bind QMActive.get_).map Prod.fst = some e) ∧
    (((postList (initQ Nat 4) [1, 2]).bind fun q =>
        (QMActive.postLIFO q 3).bind fun q' => getList q' 3).map
          Prod.fst = some [3, 1, 2]) := by
  constructor
  · intro α q e h0 hle
    have hn : q.m_nFree - 1 + 1 = q.m_nFree := by omega
    cases hf : q.m_frontEvt with
    | none =>
      have hpost : QMActive.postLIFO q e =
          some { q with m_frontEvt := some e,
                        m_nFree := q.m_nFree - 1,
                        m_nMin := if q.m_nFree - 1 < q.m_nMin then
                          q.m_nFree - 1 else q.m_nMin } := by
        simp [QMActive.postLIFO, h0, hf]
      by_cases hr : q.m_nFree ≤ q.m_end
      · simp [hpost, QMActive.get_, hn, hr]
      · have h2 : q.m_nFree = q.m_end + 1 := by omega
        simp [hpost, QMActive.get_, hn, hr, h2]
    | some f =>
      have hpost : QMActive.postLIFO q e =
          some { q with m_frontEvt := some e,
                        m_nFree := q.m_nFree - 1,
                        m_nMin := if q.m_nFree - 1 < q.m_nMin then
                          q.m_nFree - 1 else q.m_nMin,
                        m_tail := if q.m_tail + 1 = q.m_end then 0
                          else q.m_tail + 1,
                        m_ring := q.m_ring.set
                          (if q.m_tail + 1 = q.m_end then 0
                           else q.m_tail + 1) (some f) } := by
        simp [QMActive.postLIFO, h0, hf]
      by_cases hr : q.m_nFree ≤ q.m_end
      · simp [hpost, QMActive.get_, hn, hr]
      · have h2 : q.m_nFree = q.m_end + 1 := by omega
        simp [hpost, QMActive.get_, hn, hr, h2]
  · rfl

/-- Witness for C4 at a concrete input. -/
theorem claim_C4_witness :
    ((QMActive.postLIFO
        ({ m_frontEvt := some 1, m_ring := [none], m_head := 0,
           m_tail := 0, m_end := 1, m_nFree := 1, m_nMin := 1 } :
          QEQueue Nat) 9).bind QMActive.get_).map
      Prod.fst = some 9 :=
  claim_C4.1 Nat
    { m_frontEvt := some 1, m_ring := [none], m_head := 0, m_tail := 0,
      m_end := 1, m_nFree := 1, m_nMin := 1 } 9 (by decide) (by decide)

theorem stepQ_nMin {α : Type} {q q' : QEQueue α} (op : QOp α)
    (hmin : q.m_nMin ≤ q.m_nFree) (hs : stepQ q op = some q') :
    q'.m_nMin = min q.m_nMin q'.m_nFree ∧ q'.m_nMin ≤ q'.m_nFree := by
  cases op with
  | fifo e m =>
    rcases Nat.lt_or_ge m q.m_nFree with hlt | hge
    · cases hf : q.m_frontEvt <;>
        · have hpost : (QMActive.post_ q e m).map Prod.snd = some q' := hs
          simp [QMActive.post_, hlt, hf] at hpost
          subst hpost
          constructor
          · show (if q.m_nFree - 1 < q.m_nMin then q.m_nFree - 1
              else q.m_nMin) = min q.m_nMin (q.m_nFree - 1)
            by_cases hq : q.m_nFree - 1 < q.m_nMin <;> simp [hq] <;> omega
          · show (if q.m_nFree - 1 < q.m_nMin then q.m_nFree - 1
              else q.m_nMin) ≤ q.m_nFree - 1
            by_cases hq : q.m_nFree - 1 < q.m_nMin <;> simp [hq] <;> omega
    · by_cases hm0 : m = 0
      · have hnf : q.m_nFree = 0 := by omega
        have hnone : QMActive.post_ q e m = none := by
          simp [QMActive.post_, hm0, hnf]
        simp [stepQ, hnone] at hs
      · have hpost : QMActive.post_ q e m = some (false, q) := by
          simp [QMActive.post_, Nat.not_lt.2 hge, hm0]
        have hq : stepQ q (QOp.fifo e m) = some q := by simp [stepQ, hpost]
        rw [hq] at hs
        cases Option.some.inj hs
        exact ⟨by omega, hmin⟩
  | lifo e =>
    by_cases h0 : q.m_nFree = 0
    · have hnone : QMActive.postLIFO q e = none := by
        simp [QMActive.postLIFO, h0]
      simp [stepQ, hnone] at hs
    · cases hf : q.m_frontEvt <;>
        · have hpost : QMActive.postLIFO q e = some q' := hs
          simp [QMActive.postLIFO, h0, hf] at hpost
          subst hpost
          constructor
          · show (if q.m_nFree - 1 < q.m_nMin then q.m_nFree - 1
              else q.m_nMin) = min q.m_nMin (q.m_nFree - 1)
            by_cases hq : q.m_nFree - 1 < q.m_nMin <;> simp [hq] <;> omega
          · show (if q.m_nFree - 1 < q.m_nMin then q.m_nFree - 1
              else q.m_nMin) ≤ q.m_nFree - 1
            by_cases hq : q.m_nFree - 1 < q.m_nMin <;> simp [hq] <;> omega
  | get =>
    cases hf : q.m_frontEvt with
    | none =>
      have hnone : QMActive.get_ q = none := by simp [QMActive.get_, hf]
      simp [stepQ, hnone] at hs
    | some x =>
      have hget : (QMActive.get_ q).map Prod.snd = some q' := hs
      by_cases hr : q.m_nFree + 1 ≤ q.m_end
      · simp [QMActive.get_, hf, hr] at hget
        subst hget
        exact ⟨by show q.m_nMin = min q.m_nMin (q.m_nFree + 1); omega,
               by show q.m_nMin ≤ q.m_nFree + 1; omega⟩
      · by_cases he : q.m_nFree + 1 = q.m_end + 1
        · simp [QMActive.get_, hf, hr, he] at hget
          subst hget
          exact ⟨by show q.m_nMin = min q.m_nMin (q.m_end + 1); omega,
                 by show q.m_nMin ≤ q.m_end + 1; omega⟩
        · have hnone : QMActive.get_ q = none := by
            simp [QMActive.get_, hf, hr, he]
          simp [stepQ, hnone] at hs

theorem stepQ_nMin_mono {α : Type} {q q' : QEQueue α} (op : QOp α)
    (hs : stepQ q op = some q') : q'.m_nMin ≤ q.m_nMin := by
  cases op with
  | fifo e m =>
    rcases Nat.lt_or_ge m q.m_nFree with hlt | hge
    · cases hf : q.m_frontEvt <;>
        · have hpost : (QMActive.post_ q e m).map Prod.snd = some q' := hs
          simp [QMActive.post_, hlt, hf] at hpost
          subst hpost
          show (if q.m_nFree - 1 < q.m_nMin then q.m_nFree - 1
            else q.m_nMin) ≤ q.m_nMin
          by_cases hq : q.m_nFree - 1 < q.m_nMin <;> simp [hq] <;> omega
    · by_cases hm0 : m = 0
      · have hnf : q.m_nFree = 0 := by omega
        have hnone : QMActive.post_ q e m = none := by
          simp [QMActive.post_, hm0, hnf]
        simp [stepQ, hnone] at hs
      · have hpost : QMActive.post_ q e m = some (false, q) := by
          simp [QMActive.post_, Nat.not_lt.2 hge, hm0]
        have hq : stepQ q (QOp.fifo e m) = some q := by simp [stepQ, hpost]
        rw [hq] at hs
        cases Option.some.inj hs
        exact le_refl _
  | lifo e =>
    by_cases h0 : q.m_nFree = 0
    · have hnone : QMActive.postLIFO q e = none := by
        simp [QMActive.postLIFO, h0]
      simp [stepQ, hnone] at hs
    · cases hf : q.m_frontEvt <;>
        · have hpost : QMActive.postLIFO q e = some q' := hs
          simp [QMActive.postLIFO, h0, hf] at hpost
          subst hpost
          show (if q.m_nFree - 1 < q.m_nMin then q.m_nFree - 1
            else q.m_nMin) ≤ q.m_nMin
          by_cases hq : q.m_nFree - 1 < q.m_nMin <;> simp [hq] <;> omega
  | get =>
    cases hf : q.m_frontEvt with
    | none =>
      have hnone : QMActive.get_ q = none := by simp [QMActive.get_, hf]
      simp [stepQ, hnone] at hs
    | some x =>
      have hget : (QMActive.get_ q).map Prod.snd = some q' := hs
      by_cases hr : q.m_nFree + 1 ≤ q.m_end
      · simp [QMActive.get_, hf, hr] at hget
        subst hget
        exact le_refl _
      · by_cases he : q.m_nFree + 1 = q.m_end + 1
        · simp [QMActive.get_, hf, hr, he] at hget
          subst hget
          exact le_refl _
        · have hnone : QMActive.get_ q = none := by
            simp [QMActive.get_, hf, hr, he]
          simp [stepQ, hnone] at hs

theorem traceMin_le_head {α : Type} :
    ∀ (ops : List (QOp α)) (q : QEQueue α) (m : Nat),
      traceMinFree q ops = some m → m ≤ q.m_nFree
  | [], q, m, h => by
    simp [traceMinFree] at h
    omega
  | op :: ops, q, m, h => by
    cases hstep : stepQ q op with
    | none => simp [traceMinFree, hstep] at h
    | some q1 =>
      simp [traceMinFree, hstep] at h
      obtain ⟨m1, _, hm⟩ := h
      omega

theorem runQ_traceMin {α : Type} :
    ∀ (ops : List (QOp α)) (q q' : QEQueue α),
      q.m_nMin ≤ q.m_nFree → runQ q ops = some q' →
      ∃ m, traceMinFree q ops = some m ∧ q'.m_nMin = min q.m_nMin m ∧
        q'.m_nMin ≤ q'.m_nFree
  | [], q, q', hmin, hr => by
    simp [runQ] at hr
    subst hr
    exact ⟨q.m_nFree, rfl, by omega, hmin⟩
  | op :: ops, q, q', hmin, hr => by
    cases hstep : stepQ q op with
    | none => simp [runQ, hstep] at hr
    | some q1 =>
      have hr' : runQ q1 ops = some q' := by simpa [runQ, hstep] using hr
      obtain ⟨hstep_eq, hstep_le⟩ := stepQ_nMin op hmin hstep
      obtain ⟨m1, hm1, heq, hle⟩ := runQ_traceMin ops q1 q' hstep_le hr'
      have hm1le : m1 ≤ q1.m_nFree := traceMin_le_head ops q1 m1 hm1
      refine ⟨min q.m_nFree m1, ?_, ?_, hle⟩
      · simp [traceMinFree, hstep, hm1]
      · rw [heq, hstep_eq]
        omega

/-- C8: along every legal operation sequence from a fresh queue, `nMin`
equals the minimum value `nFree` has ever held (so `nMin ≤ nFree`, and a
single step never increases `nMin`), and `getQueueMin prio` returns exactly
the `nMin` of the active object registered at `prio` without touching any
state. -/
theorem claim_C8 (α : Type) :
    (∀ (c : Nat) (ops : List (QOp α)) (q' : QEQueue α),
      runQ (initQ α c) ops = some q' →
      traceMinFree (initQ α c) ops = some q'.m_nMin ∧
        q'.m_nMin ≤ q'.m_nFree) ∧
    (∀ (q q' : QEQueue α) (op : QOp α), stepQ q op = some q' →
      q'.m_nMin ≤ q.m_nMin) ∧
    (∀ (active : Nat → Option (QEQueue α)) (maxActive prio : Nat)
      (qq : QEQueue α), prio ≤ maxActive → active prio = some qq →
      QF.getQueueMin active maxActive prio = some qq.m_nMin) := by
  refine ⟨?_, ?_, ?_⟩
  · intro c ops q' hrun
    obtain ⟨m, hm, heq, hle⟩ :=
      runQ_traceMin ops (initQ α c) q' (le_refl _) hrun
    have hm1le : m ≤ c + 1 := traceMin_le_head ops (initQ α c) m hm
    have : q'.m_nMin = m := by
      rw [heq]
      show min (c + 1) m = m
      omega
    rw [← this] at hm
    exact ⟨hm, hle⟩
  · intro q q' op hs
    exact stepQ_nMin_mono op hs
  · intro active maxActive prio qq hp ha
    simp [QF.getQueueMin, hp, ha]

/-- Witness for C8 at a concrete input. -/
theorem claim_C8_witness :
    (traceMinFree (initQ Nat 3)
        [QOp.fifo 1 0, QOp.fifo 2 0, QOp.get, QOp.fifo 3 0] =
      some (2 : Nat) ∧ (2 : Nat) ≤ 2) ∧
    ((3 : Nat) ≤ 8 →
      (fun p => if p = 3 then some (initQ Nat 5) else none) 3 =
        some (initQ Nat 5) →
      QF.getQueueMin (fun p => if p = 3 then some (initQ Nat 5) else none)
        8 3 = some (initQ Nat 5).m_nMin) := by
  constructor
  · have h := (claim_C8 Nat).1 3
      [QOp.fifo 1 0, QOp.fifo 2 0, QOp.get, QOp.fifo 3 0]
      { m_frontEvt := some 2, m_ring := [some 2, none, some 3],
        m_head := 1, m_tail := 2, m_end := 3, m_nFree := 2, m_nMin := 2 }
      (by decide)
    exact h
  · intro h1 h2
    exact (claim_C8 Nat).2.2
      (fun p => if p = 3 then some (initQ Nat 5) else none) 8 3
      (initQ Nat 5) h1 h2

theorem and_pow_bne (x k : Nat) : (x &&& (1 <<< k) != 0) = x.testBit k := by
  rw [Nat.one_shiftLeft, Nat.and_two_pow]
  cases h : x.testBit k
  · simp
  · simp [(Nat.two_pow_pos k).ne']

theorem testBit_or_pow (x k i : Nat) :
    (x ||| 1 <<< k).testBit i = (x.testBit i || decide (k = i)) := by
  rw [Nat.one_shiftLeft, Nat.testBit_lor, Nat.testBit_two_pow]

theorem not32_testBit (k i : Nat) (hk : k < 32) :
    (not32 (1 <<< k)).testBit i =
      (decide (i < 32) && !(decide (k = i))) := by
  unfold not32
  rw [Nat.one_shiftLeft, Nat.testBit_xor, Nat.testBit_two_pow_sub_one,
      Nat.testBit_two_pow]
  by_cases h1 : i < 32 <;> by_cases h2 : k = i <;>
    simp [h1, h2] <;> omega

theorem testBit_hi_false (x i : Nat) (hx : x < 2 ^ 32) (hi : 32 ≤ i) :
    x.testBit i = false :=
  Nat.testBit_lt_two_pow
    (lt_of_lt_of_le hx (Nat.pow_le_pow_right (by omega) hi))

theorem testBit_and_not_pow (x k i : Nat) (hx : x < 2 ^ 32) (hk : k < 32) :
    (x &&& not32 (1 <<< k)).testBit i =
      (x.testBit i && !(decide (k = i))) := by
  rw [Nat.testBit_land, not32_testBit k i hk]
  by_cases h1 : i < 32
  · simp [h1]
  · have hxi : x.testBit i = false := testBit_hi_false x i hx (by omega)
    simp [h1, hxi]

theorem testBit_log2 (x : Nat) (hx : x ≠ 0) : x.testBit x.log2 = true := by
  have h1 : 2 ^ x.log2 ≤ x := Nat.log2_self_le hx
  have h2 : x < 2 ^ (x.log2 + 1) := Nat.lt_log2_self
  rw [Nat.testBit_to_div_mod]
  have hdiv : x / 2 ^ x.log2 = 1 := by
    have hlo : 1 ≤ x / 2 ^ x.log2 :=
      (Nat.one_le_div_iff (Nat.two_pow_pos _)).2 h1
    have hhi : x / 2 ^ x.log2 < 2 := by
      rw [Nat.div_lt_iff_lt_mul (Nat.two_pow_pos _)]
      calc x < 2 ^ (x.log2 + 1) := h2
        _ = 2 * 2 ^ x.log2 := by ring
    omega
  simp [hdiv]

theorem testBit_le_log2 (x j : Nat) (h : x.testBit j = true) :
    j ≤ x.log2 := by
  have h1 : 2 ^ j ≤ x := Nat.testBit_implies_ge h
  have h2 : x < 2 ^ (x.log2 + 1) := Nat.lt_log2_self
  have h3 : 2 ^ j < 2 ^ (x.log2 + 1) := lt_of_le_of_lt h1 h2
  have := (Nat.pow_lt_pow_iff_right (by omega : 1 < 2)).1 h3
  omega

theorem log2_lt_32 (x : Nat) (hx : x ≠ 0) (h : x < 2 ^ 32) :
    x.log2 < 32 := by
  have h1 : 2 ^ x.log2 ≤ x := Nat.log2_self_le hx
  by_contra hc
  have h2 : (2 : Nat) ^ 32 ≤ 2 ^ x.log2 :=
    Nat.pow_le_pow_right (by omega) (by omega)
  omega

/-- The one-word priority set `s` represents the abstract set `A`. -/
def PSInv32 (s : QPSet32) (A : Finset Nat) : Prop :=
  s.m_bits < 2 ^ 32 ∧
  ∀ n : Nat, n ∈ A ↔ 1 ≤ n ∧ n ≤ 32 ∧ s.m_bits.testBit (n - 1) = true

/-- The two-word priority set `s` represents the abstract set `A`. -/
def PSInv64 (s : QPSet64) (A : Finset Nat) : Prop :=
  s.bits0 < 2 ^ 32 ∧ s.bits1 < 2 ^ 32 ∧
  ∀ n : Nat, n ∈ A ↔ 1 ≤ n ∧ n ≤ 64 ∧
    (if n ≤ 32 then s.bits0.testBit (n - 1) = true
     else s.bits1.testBit (n - 33) = true)

theorem PSInv64_empty : PSInv64 QPSet64.setEmpty ∅ := by
  refine ⟨by norm_num [QPSet64.setEmpty], by norm_num [QPSet64.setEmpty], ?_⟩
  intro n
  simp [QPSet64.setEmpty, Nat.zero_testBit]

theorem PSInv64_insert (s : QPSet64) (A : Finset Nat) (h : PSInv64 s A)
    (n : Nat) (h1 : 1 ≤ n) (h64 : n ≤ 64) :
    PSInv64 (s.insert n) (insert n A) := by
  obtain ⟨hb0, hb1, hmem⟩ := h
  by_cases hn32 : n ≤ 32
  · simp only [QPSet64.insert, if_pos hn32]
    refine ⟨?_, hb1, ?_⟩
    · rw [Nat.one_shiftLeft]
      exact Nat.or_lt_two_pow hb0 (Nat.pow_lt_pow_right (by omega) (by omega))
    · intro m
      rw [Finset.mem_insert, hmem m]
      constructor
      · rintro (rfl | ⟨hm1, hm64, hbit⟩)
        · refine ⟨h1, h64, ?_⟩
          rw [if_pos hn32, testBit_or_pow]
          simp
        · refine ⟨hm1, hm64, ?_⟩
          by_cases hm32 : m ≤ 32
          · rw [if_pos hm32] at hbit ⊢
            rw [testBit_or_pow, hbit]
            simp
          · rw [if_neg hm32] at hbit ⊢
            exact hbit
      · rintro ⟨hm1, hm64, hbit⟩
        by_cases hm32 : m ≤ 32
        · rw [if_pos hm32, testBit_or_pow] at hbit
          simp only [Bool.or_eq_true, decide_eq_true_eq] at hbit
          rcases hbit with hb | hb
          · exact Or.inr ⟨hm1, hm64, by rw [if_pos hm32]; exact hb⟩
          · exact Or.inl (by omega)
        · rw [if_neg hm32] at hbit
          exact Or.inr ⟨hm1, hm64, by rw [if_neg hm32]; exact hbit⟩
  · simp only [QPSet64.insert, if_neg hn32]
    refine ⟨hb0, ?_, ?_⟩
    · rw [Nat.one_shiftLeft]
      exact Nat.or_lt_two_pow hb1 (Nat.pow_lt_pow_right (by omega) (by omega))
    · intro m
      rw [Finset.mem_insert, hmem m]
      constructor
      · rintro (rfl | ⟨hm1, hm64, hbit⟩)
        · refine ⟨h1, h64, ?_⟩
          rw [if_neg hn32, testBit_or_pow]
          simp
        · refine ⟨hm1, hm64, ?_⟩
          by_cases hm32 : m ≤ 32
          · rw [if_pos hm32] at hbit ⊢
            exact hbit
          · rw [if_neg hm32] at hbit ⊢
            rw [testBit_or_pow, hbit]
            simp
      · rintro ⟨hm1, hm64, hbit⟩
        by_cases hm32 : m ≤ 32
        · rw [if_pos hm32] at hbit
          exact Or.inr ⟨hm1, hm64, by rw [if_pos hm32]; exact hbit⟩
        · rw [if_neg hm32, testBit_or_pow] at hbit
          simp only [Bool.or_eq_true, decide_eq_true_eq] at hbit
          rcases hbit with hb | hb
          · exact Or.inr ⟨hm1, hm64, by rw [if_neg hm32]; exact hb⟩
          · exact Or.inl (by omega)

theorem PSInv64_remove (s : QPSet64) (A : Finset Nat) (h : PSInv64 s A)
    (n : Nat) (h1 : 1 ≤ n) (h64 : n ≤ 64) :
    PSInv64 (s.remove n) (A.erase n) := by
  obtain ⟨hb0, hb1, hmem⟩ := h
  by_cases hn32 : n ≤ 32
  · simp only [QPSet64.remove, if_pos hn32]
    refine ⟨lt_of_le_of_lt Nat.and_le_left hb0, hb1, ?_⟩
    intro m
    rw [Finset.mem_erase, hmem m]
    constructor
    · rintro ⟨hne, hm1, hm64, hbit⟩
      refine ⟨hm1, hm64, ?_⟩
      by_cases hm32 : m ≤ 32
      · rw [if_pos hm32] at hbit ⊢
        rw [testBit_and_not_pow _ _ _ hb0 (by omega), hbit]
        simp
        omega
      · rw [if_neg hm32] at hbit ⊢
        exact hbit
    · rintro ⟨hm1, hm64, hbit⟩
      by_cases hm32 : m ≤ 32
      · rw [if_pos hm32, testBit_and_not_pow _ _ _ hb0 (by omega)] at hbit
        simp only [Bool.and_eq_true, Bool.not_eq_eq_eq_not, Bool.not_true,
          decide_eq_false_iff_not] at hbit
        obtain ⟨hb, hnm⟩ := hbit
        exact ⟨by omega, hm1, hm64, by rw [if_pos hm32]; exact hb⟩
      · rw [if_neg hm32] at hbit
        exact ⟨by omega, hm1, hm64, by rw [if_neg hm32]; exact hbit⟩
  · simp only [QPSet64.remove, if_neg hn32]
    refine ⟨hb0, lt_of_le_of_lt Nat.and_le_left hb1, ?_⟩
    intro m
    rw [Finset.mem_erase, hmem m]
    constructor
    · rintro ⟨hne, hm1, hm64, hbit⟩
      refine ⟨hm1, hm64, ?_⟩
      by_cases hm32 : m ≤ 32
      · rw [if_pos hm32] at hbit ⊢
        exact hbit
      · rw [if_neg hm32] at hbit ⊢
        rw [testBit_and_not_pow _ _ _ hb1 (by omega), hbit]
        simp
        omega
    · rintro ⟨hm1, hm64, hbit⟩
      by_cases hm32 : m ≤ 32
      · rw [if_pos hm32] at hbit
        exact ⟨by omega, hm1, hm64, by rw [if_pos hm32]; exact hbit⟩
      · rw [if_neg hm32, testBit_and_not_pow _ _ _ hb1 (by omega)] at hbit
        simp only [Bool.and_eq_true, Bool.not_eq_eq_eq_not, Bool.not_true,
          decide_eq_false_iff_not] at hbit
        obtain ⟨hb, hnm⟩ := hbit
        exact ⟨by omega, hm1, hm64, by rw [if_neg hm32]; exact hb⟩

theorem PSInv64_run : ∀ ops : List PSOp,
    (∀ op ∈ ops, 1 ≤ op.elem ∧ op.elem ≤ 64) →
    PSInv64 (runPS64 ops) (absPS ops)
  | [], _ => PSInv64_empty
  | op :: ops, hv => by
    have hrec := PSInv64_run ops (fun o ho => hv o (List.mem_cons_of_mem _ ho))
    have hop := hv op (List.mem_cons_self _ _)
    cases op with
    | ins n => exact PSInv64_insert _ _ hrec n hop.1 hop.2
    | rem n => exact PSInv64_remove _ _ hrec n hop.1 hop.2

theorem PSInv32_empty : PSInv32 QPSet32.setEmpty ∅ := by
  refine ⟨by norm_num [QPSet32.setEmpty], ?_⟩
  intro n
  simp [QPSet32.setEmpty, Nat.zero_testBit]

theorem PSInv32_insert (s : QPSet32) (A : Finset Nat) (h : PSInv32 s A)
    (n : Nat) (h1 : 1 ≤ n) (h32 : n ≤ 32) :
    PSInv32 (s.insert n) (insert n A) := by
  obtain ⟨hb, hmem⟩ := h
  refine ⟨?_, ?_⟩
  · show s.m_bits ||| 1 <<< (n - 1) < 2 ^ 32
    rw [Nat.one_shiftLeft]
    exact Nat.or_lt_two_pow hb (Nat.pow_lt_pow_right (by omega) (by omega))
  · intro m
    rw [Finset.mem_insert, hmem m]
    show _ ↔ 1 ≤ m ∧ m ≤ 32 ∧ (s.m_bits ||| 1 <<< (n - 1)).testBit (m - 1) = true
    rw [testBit_or_pow]
    constructor
    · rintro (rfl | ⟨hm1, hm32, hbit⟩)
      · exact ⟨h1, h32, by simp⟩
      · exact ⟨hm1, hm32, by rw [hbit]; simp⟩
    · rintro ⟨hm1, hm32, hbit⟩
      simp only [Bool.or_eq_true, decide_eq_true_eq] at hbit
      rcases hbit with hb' | hb'
      · exact Or.inr ⟨hm1, hm32, hb'⟩
      · exact Or.inl (by omega)

theorem PSInv32_remove (s : QPSet32) (A : Finset Nat) (h : PSInv32 s A)
    (n : Nat) (h1 : 1 ≤ n) (h32 : n ≤ 32) :
    PSInv32 (s.remove n) (A.erase n) := by
  obtain ⟨hb, hmem⟩ := h
  refine ⟨lt_of_le_of_lt Nat.and_le_left hb, ?_⟩
  intro m
  rw [Finset.mem_erase, hmem m]
  show _ ↔ 1 ≤ m ∧ m ≤ 32 ∧
    (s.m_bits &&& not32 (1 <<< (n - 1))).testBit (m - 1) = true
  rw [testBit_and_not_pow _ _ _ hb (by omega)]
  constructor
  · rintro ⟨hne, hm1, hm32, hbit⟩
    refine ⟨hm1, hm32, ?_⟩
    rw [hbit]
    simp
    omega
  · rintro ⟨hm1, hm32, hbit⟩
    simp only [Bool.and_eq_true, Bool.not_eq_eq_eq_not, Bool.not_true,
      decide_eq_false_iff_not] at hbit
    obtain ⟨hb', hnm⟩ := hbit
    exact ⟨by omega, hm1, hm32, hb'⟩

theorem PSInv32_run : ∀ ops : List PSOp,
    (∀ op ∈ ops, 1 ≤ op.elem ∧ op.elem ≤ 32) →
    PSInv32 (runPS32 ops) (absPS ops)
  | [], _ => PSInv32_empty
  | op :: ops, hv => by
    have hrec := PSInv32_run ops (fun o ho => hv o (List.mem_cons_of_mem _ ho))
    have hop := hv op (List.mem_cons_self _ _)
    cases op with
    | ins n => exact PSInv32_insert _ _ hrec n hop.1 hop.2
    | rem n => exact PSInv32_remove _ _ hrec n hop.1 hop.2

theorem PSInv64_findMax (s : QPSet64) (A : Finset Nat) (h : PSInv64 s A) :
    (∀ n ∈ A, n ≤ s.findMax) ∧ (A.Nonempty → s.findMax ∈ A) ∧
    (A = ∅ → s.findMax = 0) := by
  obtain ⟨hb0, hb1, hmem⟩ := h
  by_cases h1 : s.bits1 = 0
  · by_cases h0 : s.bits0 = 0
    · have hA : ∀ n, n ∉ A := by
        intro n hn
        obtain ⟨_, _, hbit⟩ := (hmem n).1 hn
        by_cases hm32 : n ≤ 32
        · rw [if_pos hm32, h0] at hbit
          simp [Nat.zero_testBit] at hbit
        · rw [if_neg hm32, h1] at hbit
          simp [Nat.zero_testBit] at hbit
      have hfm : s.findMax = 0 := by simp [QPSet64.findMax, h1, QF_LOG2, h0]
      refine ⟨?_, ?_, fun _ => hfm⟩
      · intro n hn
        exact absurd hn (hA n)
      · rintro ⟨n, hn⟩
        exact absurd hn (hA n)
    · have hl32 : s.bits0.log2 < 32 := log2_lt_32 _ h0 hb0
      have hfm : s.findMax = s.bits0.log2 + 1 := by
        simp [QPSet64.findMax, h1, QF_LOG2, h0]
      have hmax_mem : s.bits0.log2 + 1 ∈ A := by
        rw [hmem]
        refine ⟨by omega, by omega, ?_⟩
        rw [if_pos (by omega)]
        simpa using testBit_log2 _ h0
      refine ⟨?_, fun _ => hfm ▸ hmax_mem, ?_⟩
      · intro n hn
        obtain ⟨hn1, hn64, hbit⟩ := (hmem n).1 hn
        rw [hfm]
        by_cases hm32 : n ≤ 32
        · rw [if_pos hm32] at hbit
          have := testBit_le_log2 _ _ hbit
          omega
        · rw [if_neg hm32, h1] at hbit
          simp [Nat.zero_testBit] at hbit
      · intro hemp
        exact absurd (hemp ▸ hmax_mem) (Finset.not_mem_empty _)
  · have hl32 : s.bits1.log2 < 32 := log2_lt_32 _ h1 hb1
    have hfm : s.findMax = s.bits1.log2 + 33 := by
      simp [QPSet64.findMax, h1, QF_LOG2]
    have hmax_mem : s.bits1.log2 + 33 ∈ A := by
      rw [hmem]
      refine ⟨by omega, by omega, ?_⟩
      rw [if_neg (by omega)]
      have harith : s.bits1.log2 + 33 - 33 = s.bits1.log2 := by omega
      rw [harith]
      exact testBit_log2 _ h1
    refine ⟨?_, fun _ => hfm ▸ hmax_mem, ?_⟩
    · intro n hn
      obtain ⟨hn1, hn64, hbit⟩ := (hmem n).1 hn
      rw [hfm]
      by_cases hm32 : n ≤ 32
      · omega
      · rw [if_neg hm32] at hbit
        have := testBit_le_log2 _ _ hbit
        omega
    · intro hemp
      exact absurd (hemp ▸ hmax_mem) (Finset.not_mem_empty _)

theorem PSInv32_findMax (s : QPSet32) (A : Finset Nat) (h : PSInv32 s A) :
    (∀ n ∈ A, n ≤ s.findMax) ∧ (A.Nonempty → s.findMax ∈ A) ∧
    (A = ∅ → s.findMax = 0) := by
  obtain ⟨hb, hmem⟩ := h
  by_cases h0 : s.m_bits = 0
  · have hA : ∀ n, n ∉ A := by
      intro n hn
      obtain ⟨_, _, hbit⟩ := (hmem n).1 hn
      rw [h0] at hbit
      simp [Nat.zero_testBit] at hbit
    have hfm : s.findMax = 0 := by simp [QPSet32.findMax, QF_LOG2, h0]
    refine ⟨?_, ?_, fun _ => hfm⟩
    · intro n hn
      exact absurd hn (hA n)
    · rintro ⟨n, hn⟩
      exact absurd hn (hA n)
  · have hl32 : s.m_bits.log2 < 32 := log2_lt_32 _ h0 hb
    have hfm : s.findMax = s.m_bits.log2 + 1 := by
      simp [QPSet32.findMax, QF_LOG2, h0]
    have hmax_mem : s.m_bits.log2 + 1 ∈ A := by
      rw [hmem]
      refine ⟨by omega, by omega, ?_⟩
      simpa using testBit_log2 _ h0
    refine ⟨?_, fun _ => hfm ▸ hmax_mem, ?_⟩
    · intro n hn
      obtain ⟨hn1, hn32, hbit⟩ := (hmem n).1 hn
      rw [hfm]
      have := testBit_le_log2 _ _ hbit
      omega
    · intro hemp
      exact absurd (hemp ▸ hmax_mem) (Finset.not_mem_empty _)

theorem hasElement64_mem (s : QPSet64) (A : Finset Nat) (h : PSInv64 s A)
    (n : Nat) (h1 : 1 ≤ n) (h64 : n ≤ 64) :
    (s.hasElement n = true ↔ n ∈ A) := by
  obtain ⟨_, _, hmem⟩ := h
  rw [hmem]
  unfold QPSet64.hasElement
  by_cases hn32 : n ≤ 32
  · rw [if_pos hn32, if_pos hn32, and_pow_bne]
    constructor
    · intro hb
      exact ⟨h1, h64, hb⟩
    · rintro ⟨_, _, hb⟩
      exact hb
  · rw [if_neg hn32, if_neg hn32, and_pow_bne]
    constructor
    · intro hb
      exact ⟨h1, h64, hb⟩
    · rintro ⟨_, _, hb⟩
      exact hb

theorem hasElement32_mem (s : QPSet32) (A : Finset Nat) (h : PSInv32 s A)
    (n : Nat) (h1 : 1 ≤ n) (h32 : n ≤ 32) :
    (s.hasElement n = true ↔ n ∈ A) := by
  obtain ⟨_, hmem⟩ := h
  rw [hmem]
  unfold QPSet32.hasElement
  rw [and_pow_bne]
  constructor
  · intro hb
    exact ⟨h1, h32, hb⟩
  · rintro ⟨_, _, hb⟩
    exact hb

/-- C7: after any sequence of inserts and removes of elements in range,
`hasElement` agrees with the abstract set and `findMax` returns its largest
element (or 0 when empty), in both the one-word and the two-word form; the
two-word `findMax` checks the high word first and returns `log2(high) + 32`
when it is nonzero, else `log2(low)`. -/
theorem claim_C7 :
    (∀ ops : List PSOp, (∀ op ∈ ops, 1 ≤ op.elem ∧ op.elem ≤ 64) →
      (∀ n, 1 ≤ n → n ≤ 64 →
        ((runPS64 ops).hasElement n = true ↔ n ∈ absPS ops)) ∧
      (∀ n ∈ absPS ops, n ≤ (runPS64 ops).findMax) ∧
      ((absPS ops).Nonempty → (runPS64 ops).findMax ∈ absPS ops) ∧
      (absPS ops = ∅ → (runPS64 ops).findMax = 0) ∧
      ((runPS64 ops).bits1 ≠ 0 →
        (runPS64 ops).findMax = QF_LOG2 (runPS64 ops).bits1 + 32) ∧
      ((runPS64 ops).bits1 = 0 →
        (runPS64 ops).findMax = QF_LOG2 (runPS64 ops).bits0)) ∧
    (∀ ops : List PSOp, (∀ op ∈ ops, 1 ≤ op.elem ∧ op.elem ≤ 32) →
      (∀ n, 1 ≤ n → n ≤ 32 →
        ((runPS32 ops).hasElement n = true ↔ n ∈ absPS ops)) ∧
      (∀ n ∈ absPS ops, n ≤ (runPS32 ops).findMax) ∧
      ((absPS ops).Nonempty → (runPS32 ops).findMax ∈ absPS ops) ∧
      (absPS ops = ∅ → (runPS32 ops).findMax = 0)) := by
  constructor
  · intro ops hv
    have hinv := PSInv64_run ops hv
    have hfm := PSInv64_findMax _ _ hinv
    refine ⟨?_, hfm.1, hfm.2.1, hfm.2.2, ?_, ?_⟩
    · intro n h1 h64
      exact hasElement64_mem _ _ hinv n h1 h64
    · intro h
      simp [QPSet64.findMax, h]
    · intro h
      simp [QPSet64.findMax, h]
  · intro ops hv
    have hinv := PSInv32_run ops hv
    have hfm := PSInv32_findMax _ _ hinv
    exact ⟨fun n h1 h32 => hasElement32_mem _ _ hinv n h1 h32,
           hfm.1, hfm.2.1, hfm.2.2⟩

/-- Witness for C7 at a concrete input. -/
theorem claim_C7_witness :
    ((∀ n, 1 ≤ n → n ≤ 64 →
        ((runPS64 [PSOp.ins 33]).hasElement n = true ↔
          n ∈ absPS [PSOp.ins 33])) ∧
      (∀ n ∈ absPS [PSOp.ins 33], n ≤ (runPS64 [PSOp.ins 33]).findMax) ∧
      ((absPS [PSOp.ins 33]).Nonempty →
        (runPS64 [PSOp.ins 33]).findMax ∈ absPS [PSOp.ins 33]) ∧
      (absPS [PSOp.ins 33] = ∅ → (runPS64 [PSOp.ins 33]).findMax = 0) ∧
      ((runPS64 [PSOp.ins 33]).bits1 ≠ 0 →
        (runPS64 [PSOp.ins 33]).findMax =
          QF_LOG2 (runPS64 [PSOp.ins 33]).bits1 + 32) ∧
      ((runPS64 [PSOp.ins 33]).bits1 = 0 →
        (runPS64 [PSOp.ins 33]).findMax =
          QF_LOG2 (runPS64 [PSOp.ins 33]).bits0)) ∧
    ((∀ n, 1 ≤ n → n ≤ 32 →
        ((runPS32 [PSOp.ins 7]).hasElement n = true ↔
          n ∈ absPS [PSOp.ins 7])) ∧
      (∀ n ∈ absPS [PSOp.ins 7], n ≤ (runPS32 [PSOp.ins 7]).findMax) ∧
      ((absPS [PSOp.ins 7]).Nonempty →
        (runPS32 [PSOp.ins 7]).findMax ∈ absPS [PSOp.ins 7]) ∧
      (absPS [PSOp.ins 7] = ∅ → (runPS32 [PSOp.ins 7]).findMax = 0)) :=
  ⟨claim_C7.1 [PSOp.ins 33] (by decide), claim_C7.2 [PSOp.ins 7] (by decide)⟩
